import Mathlib

/-!
Verification of the `linearAlgebra::Vector` class from
`src/tankgame/utils/Vector.hpp`.

The C++ class `Vector<T, Dim>` stores its components in a private
`std::vector<T> vec` and offers addition, subtraction, scalar
multiplication, dot product, Euclidean length, cross product (for
`Dim == 3`) and string rendering.  `Scalar` is `double`, idealised here
as the real numbers `ℝ` (exact arithmetic; IEEE-754 rounding is outside
the scope of this embedding).
-/

namespace linearAlgebra

/-- C++ `using Scalar = double`, idealised as the real numbers. -/
abbrev Scalar : Type := ℝ

/-- `Vector<T, Dim>`: the private member `std::vector<T> vec` together with
the invariant that it holds exactly `Dim` components, which the
arity-checked variadic constructor (`requires(sizeof...(Xn) == Dim)`)
establishes. -/
structure Vector (T : Type) (Dim : ℕ) where
  vec : List T
  hlen : vec.length = Dim

/-- The body of `operator+`: `std::transform(vec.begin(), vec.end(),
other.vec.begin(), std::back_inserter(ret), std::plus<T>())` — an
element-wise sum over the paired components. -/
def addList {T : Type} [Add T] (a b : List T) : List T :=
  List.zipWith (fun u v => u + v) a b

/-- The body of `operator-`: as `operator+` but with `std::minus<T>()`. -/
def subList {T : Type} [Sub T] (a b : List T) : List T :=
  List.zipWith (fun u v => u - v) a b

/-- The body of `operator*(const Scalar&)` at component type `T = Scalar`:
`std::transform(vec.begin(), vec.end(), std::back_inserter(ret),
[&s](Scalar elem){ return s*elem; })`. -/
def scaleList (s : Scalar) (l : List Scalar) : List Scalar :=
  l.map (fun elem => s * elem)

/-- The body of `operator*(const Scalar&)` for a general component type
`T`: the lambda's parameter is declared `Scalar elem`, so each component
is first converted to `double` (`toSc`), the product `s*elem` is computed
in `double`, and `std::back_inserter` into the `std::vector<T>` result
narrows the `double` value back to `T` (`ofSc`).  At `T = Scalar` both
conversions are the identity and this is `scaleList`. -/
def scaleListT {T : Type} (toSc : T → Scalar) (ofSc : Scalar → T)
    (s : Scalar) (l : List T) : List T :=
  l.map (fun elem => ofSc (s * toSc elem))

/-- The C++ narrowing conversion from `double` to an integer type
(as in `int x = 0.5;`): the value is truncated toward zero. -/
noncomputable def truncToInt (x : Scalar) : ℤ :=
  if 0 ≤ x then ⌊x⌋ else ⌈x⌉

theorem scaleListT_id (s : Scalar) (l : List Scalar) :
    scaleListT id id s l = scaleList s l := rfl

/-- The body of `operator*(const Vector&)` (dot product):
`ret = 0.0; for(i=0; i<vec.size(); i++) ret += vec[i]*other.vec[i];`.
The loop pairs the components positionally, so it is a left fold over
the zipped component lists starting from `0`. -/
def dotList (a b : List Scalar) : Scalar :=
  (a.zip b).foldl (fun ret p => ret + p.1 * p.2) 0

/-- The accumulation loop of `length()`:
`ret = 0.0; for(i=0; i<vec.size(); i++) ret += vec[i]*vec[i];`. -/
def lenSqList (l : List Scalar) : Scalar :=
  l.foldl (fun ret e => ret + e * e) 0

theorem length_addList {T : Type} [Add T] {n : ℕ} (a b : List T)
    (ha : a.length = n) (hb : b.length = n) : (addList a b).length = n := by
  simp [addList, ha, hb]

theorem length_subList {T : Type} [Sub T] {n : ℕ} (a b : List T)
    (ha : a.length = n) (hb : b.length = n) : (subList a b).length = n := by
  simp [subList, ha, hb]

theorem length_scaleList (s : Scalar) (l : List Scalar) :
    (scaleList s l).length = l.length := by
  simp [scaleList]

/-- `operator+` on vectors. -/
def Vector.add {T : Type} [Add T] {n : ℕ} (a b : Vector T n) : Vector T n :=
  ⟨addList a.vec b.vec, length_addList a.vec b.vec a.hlen b.hlen⟩

/-- `operator-` on vectors. -/
def Vector.sub {T : Type} [Sub T] {n : ℕ} (a b : Vector T n) : Vector T n :=
  ⟨subList a.vec b.vec, length_subList a.vec b.vec a.hlen b.hlen⟩

/-- `operator*(const Scalar& s)` on vectors. -/
def Vector.scale {n : ℕ} (a : Vector Scalar n) (s : Scalar) : Vector Scalar n :=
  ⟨scaleList s a.vec, by rw [length_scaleList, a.hlen]⟩

/-- `operator*(const Scalar& s)` on vectors of a general component type
`T`, with its `T ↔ double` conversions. -/
def Vector.scaleGen {T : Type} {n : ℕ} (toSc : T → Scalar) (ofSc : Scalar → T)
    (a : Vector T n) (s : Scalar) : Vector T n :=
  ⟨scaleListT toSc ofSc s a.vec, by rw [scaleListT, List.length_map, a.hlen]⟩

/-- `operator*(const Vector& other)` on vectors: the dot product, a scalar. -/
def Vector.dot {n : ℕ} (a b : Vector Scalar n) : Scalar :=
  dotList a.vec b.vec

/-- `length()`: `std::sqrt` of the accumulated sum of squares. -/
noncomputable def Vector.length {n : ℕ} (a : Vector Scalar n) : Scalar :=
  Real.sqrt (lenSqList a.vec)

/-- Component access `vec[i]` (in-bounds by the length invariant). -/
def Vector.nth {T : Type} {n : ℕ} (v : Vector T n) (i : Fin n) : T :=
  v.vec.get (Fin.cast v.hlen.symm i)

/-- The member function `x` (cross product), available only at `Dim == 3`:
`{ vec[1]*other.vec[2] - vec[2]*other.vec[1],
   vec[2]*other.vec[0] - vec[0]*other.vec[2],
   vec[0]*other.vec[1] - vec[1]*other.vec[0] }`. -/
def Vector.x (a b : Vector Scalar 3) : Vector Scalar 3 :=
  ⟨[a.nth 1 * b.nth 2 - a.nth 2 * b.nth 1,
    a.nth 2 * b.nth 0 - a.nth 0 * b.nth 2,
    a.nth 0 * b.nth 1 - a.nth 1 * b.nth 0], rfl⟩

/-- The public variadic constructor at arity 3 (e.g. `Vector3d(1,0,0)`). -/
def mk3 {T : Type} (x0 x1 x2 : T) : Vector T 3 :=
  ⟨[x0, x1, x2], rfl⟩

/-- The all-zero vector of the spec's algebraic properties. -/
def zeroVector (n : ℕ) : Vector Scalar n :=
  ⟨List.replicate n 0, List.length_replicate n 0⟩

theorem Vector.ext' {T : Type} {n : ℕ} {a b : Vector T n}
    (h : a.vec = b.vec) : a = b := by
  cases a; cases b; simp_all

/-- C1: the cross product `x` returns the vector with components
`a[1]*b[2] - a[2]*b[1]`, `a[2]*b[0] - a[0]*b[2]`, `a[0]*b[1] - a[1]*b[0]`;
in particular `Vector3d(1,0,0)` cross `Vector3d(0,1,0)` is `Vector3d(0,0,1)`. -/
theorem cross_spec :
    (∀ a b : Vector Scalar 3,
      (a.x b).nth 0 = a.nth 1 * b.nth 2 - a.nth 2 * b.nth 1 ∧
      (a.x b).nth 1 = a.nth 2 * b.nth 0 - a.nth 0 * b.nth 2 ∧
      (a.x b).nth 2 = a.nth 0 * b.nth 1 - a.nth 1 * b.nth 0) ∧
    (mk3 (1 : Scalar) 0 0).x (mk3 0 1 0) = mk3 0 0 1 := by
  constructor
  · exact fun a b => ⟨rfl, rfl, rfl⟩
  · apply Vector.ext'
    show [(0 : ℝ) * 0 - 0 * 1, 0 * 0 - 1 * 0, 1 * 1 - 0 * 0] = [0, 0, 1]
    norm_num

theorem foldl_dot_shift :
    ∀ (l : List (Scalar × Scalar)) (c : Scalar),
      l.foldl (fun ret p => ret + p.1 * p.2) c
        = c + l.foldl (fun ret p => ret + p.1 * p.2) 0
  | [], c => by simp
  | p :: l, c => by
    simp only [List.foldl_cons]
    rw [foldl_dot_shift l (c + p.1 * p.2), foldl_dot_shift l (0 + p.1 * p.2)]
    ring

theorem dotList_cons (u v : Scalar) (a b : List Scalar) :
    dotList (u :: a) (v :: b) = u * v + dotList a b := by
  simp only [dotList, List.zip_cons_cons, List.foldl_cons]
  rw [foldl_dot_shift (a.zip b) (0 + u * v)]
  ring_nf

theorem dotList_eq_sum (n : ℕ) :
    ∀ (a b : List Scalar), a.length = n → b.length = n →
      dotList a b = ∑ i : Fin n, a.getD i 0 * b.getD i 0 := by
  induction n with
  | zero =>
    intro a b ha hb
    rw [List.length_eq_zero] at ha hb
    subst ha; subst hb
    simp [dotList]
  | succ m ih =>
    intro a b ha hb
    cases a with
    | nil => simp at ha
    | cons u a =>
      cases b with
      | nil => simp at hb
      | cons v b =>
        rw [dotList_cons, Fin.sum_univ_succ]
        simp only [Fin.val_zero, List.getD_cons_zero, Fin.val_succ,
          List.getD_cons_succ]
        rw [ih a b (by simpa using ha) (by simpa using hb)]

theorem nth_eq_getD {n : ℕ} (v : Vector Scalar n) (i : Fin n) :
    v.nth i = v.vec.getD i 0 := by
  rw [Vector.nth, List.getD_eq_get]
  · rfl

/-- C2: the dot product `operator*` returns the scalar
`sum over i of a[i]*b[i]`; in particular `Vector3d(1,2,3)` dot
`Vector3d(4,5,6)` is `32.0`. -/
theorem dot_spec :
    (∀ {n : ℕ} (a b : Vector Scalar n),
      a.dot b = ∑ i : Fin n, a.nth i * b.nth i) ∧
    (mk3 (1 : Scalar) 2 3).dot (mk3 4 5 6) = 32 := by
  constructor
  · intro n a b
    rw [Vector.dot, dotList_eq_sum n a.vec b.vec a.hlen b.hlen]
    exact Finset.sum_congr rfl fun i _ => by rw [nth_eq_getD, nth_eq_getD]
  · show dotList [(1 : ℝ), 2, 3] [4, 5, 6] = 32
    simp only [dotList, List.zip_cons_cons, List.zip_nil_right,
      List.foldl_cons, List.foldl_nil]
    norm_num

theorem foldl_sq_shift :
    ∀ (l : List Scalar) (c : Scalar),
      l.foldl (fun ret e => ret + e * e) c
        = c + l.foldl (fun ret e => ret + e * e) 0
  | [], c => by simp
  | e :: l, c => by
    simp only [List.foldl_cons]
    rw [foldl_sq_shift l (c + e * e), foldl_sq_shift l (0 + e * e)]
    ring

theorem lenSqList_eq_dotList : ∀ l : List Scalar, lenSqList l = dotList l l
  | [] => by simp [lenSqList, dotList]
  | e :: l => by
    rw [dotList_cons]
    simp only [lenSqList, List.foldl_cons]
    rw [foldl_sq_shift l (0 + e * e)]
    rw [show l.foldl (fun ret x => ret + x * x) 0 = lenSqList l from rfl,
      lenSqList_eq_dotList l]
    ring

/-- C3: `length()` is the Euclidean norm `sqrt(dot(a,a))`; in particular
`Vector3d(3,4,0).length()` is exactly `5.0`. -/
theorem length_spec :
    (∀ {n : ℕ} (a : Vector Scalar n), a.length = Real.sqrt (a.dot a)) ∧
    (mk3 (3 : Scalar) 4 0).length = 5 := by
  constructor
  · intro n a
    rw [Vector.length, Vector.dot, lenSqList_eq_dotList]
  · rw [Vector.length]
    have h : lenSqList [(3 : ℝ), 4, 0] = 25 := by
      simp only [lenSqList, List.foldl_cons, List.foldl_nil]
      norm_num
    rw [show (mk3 (3 : Scalar) 4 0).vec = [(3 : ℝ), 4, 0] from rfl, h]
    rw [show (25 : ℝ) = 5 ^ 2 by norm_num]
    exact Real.sqrt_sq (by norm_num)

theorem floor_half : ⌊(1 / 2 : ℝ)⌋ = 0 := by
  rw [Int.floor_eq_iff]
  norm_num

theorem truncToInt_half : truncToInt (1 / 2 : ℝ) = 0 := by
  rw [truncToInt, if_pos (by norm_num)]
  exact floor_half

/-- C6 counterexample: for an integer component type the claim
`result[i] = s * a[i]` fails — the `double` product is narrowed back to
`T` on insertion.  With `T = int`, `a = (1)` and `s = 0.5` the code
stores `0`, but `s * a[0] = 0.5`. -/
theorem scale_counterexample :
    scaleListT Int.cast truncToInt (1 / 2 : ℝ) [(1 : ℤ)] = [(0 : ℤ)] ∧
    ((0 : ℤ) : ℝ) ≠ (1 / 2 : ℝ) * ((1 : ℤ) : ℝ) := by
  constructor
  · show [truncToInt ((1 / 2 : ℝ) * ((1 : ℤ) : ℝ))] = [(0 : ℤ)]
    rw [show ((1 : ℤ) : ℝ) = 1 by norm_num, mul_one, truncToInt_half]
  · norm_num

/-- C6 (amended): at component type `Scalar` (`double`),
`operator*(const Scalar& s)` returns the vector with
`result[i] = s * a[i]` for every `i`; for a general arithmetic component
type `T` each component is converted to `double`, multiplied by `s`, and
the `double` product is narrowed back to `T`, so
`result[i] = ofSc (s * toSc a[i])` — which truncates for integer `T`,
e.g. scaling the integer vector `(1, 2, 3)` by `0.5` stores first
component `0`. -/
theorem scale_spec_amended :
    (∀ {n : ℕ} (a : Vector Scalar n) (s : Scalar) (i : Fin n),
      (a.scale s).nth i = s * a.nth i) ∧
    (∀ {T : Type} (toSc : T → Scalar) (ofSc : Scalar → T) {n : ℕ}
      (a : Vector T n) (s : Scalar) (i : Fin n),
      (a.scaleGen toSc ofSc s).nth i = ofSc (s * toSc (a.nth i))) ∧
    (Vector.scaleGen Int.cast truncToInt (mk3 (1 : ℤ) 2 3) (1 / 2)).nth 0 = 0 := by
  refine ⟨?_, ?_, ?_⟩
  · intro n a s i
    simp [Vector.nth, Vector.scale, scaleList, List.get_map]
  · intro T toSc ofSc n a s i
    simp [Vector.nth, Vector.scaleGen, scaleListT, List.get_map]
  · show truncToInt ((1 / 2 : ℝ) * ((1 : ℤ) : ℝ)) = 0
    rw [show ((1 : ℤ) : ℝ) = 1 by norm_num, mul_one, truncToInt_half]

theorem addList_assoc : ∀ a b c : List Scalar,
    addList (addList a b) c = addList a (addList b c) := by
  intro a
  induction a with
  | nil => intro b c; simp [addList]
  | cons u a ih =>
    intro b c
    cases b with
    | nil => simp [addList]
    | cons v b =>
      cases c with
      | nil => simp [addList]
      | cons w c =>
        simp only [addList, List.zipWith_cons_cons, List.cons.injEq]
        exact ⟨add_assoc u v w, ih b c⟩

/-- C7: vector addition is associative:
`add(add(a,b),c) = add(a,add(b,c))` component-wise. -/
theorem add_assoc_spec {n : ℕ} (a b c : Vector Scalar n) :
    (a.add b).add c = a.add (b.add c) := by
  apply Vector.ext'
  exact addList_assoc a.vec b.vec c.vec

theorem subList_self : ∀ l : List Scalar,
    subList l l = List.replicate l.length 0 := by
  intro l
  induction l with
  | nil => simp [subList]
  | cons e l ih =>
    simp only [subList, List.zipWith_cons_cons, List.length_cons,
      List.replicate_succ, List.cons.injEq]
    exact ⟨sub_self e, ih⟩

/-- C8: `subtract(a, a)` is the zero vector. -/
theorem sub_self_spec {n : ℕ} (a : Vector Scalar n) :
    a.sub a = zeroVector n := by
  apply Vector.ext'
  show subList a.vec a.vec = List.replicate n 0
  rw [subList_self, a.hlen]

theorem lenSqList_replicate_zero : ∀ n : ℕ,
    lenSqList (List.replicate n 0) = 0 := by
  intro n
  induction n with
  | zero => simp [lenSqList]
  | succ m ih =>
    simp only [lenSqList, List.replicate_succ, List.foldl_cons]
    rw [show (0 : ℝ) + 0 * 0 = 0 by ring]
    exact ih

/-- C9: `length(a) ≥ 0` for every vector, and the zero vector has
length exactly `0`. -/
theorem length_nonneg_spec :
    (∀ {n : ℕ} (a : Vector Scalar n), 0 ≤ a.length) ∧
    (∀ n : ℕ, (zeroVector n).length = 0) := by
  constructor
  · intro n a
    exact Real.sqrt_nonneg _
  · intro n
    rw [Vector.length]
    rw [show (zeroVector n).vec = List.replicate n 0 from rfl]
    rw [lenSqList_replicate_zero n]
    exact Real.sqrt_zero

/-- C4: every vector holds exactly `Dim` components — after construction
and after each of `add`, `sub`, `scale` and the cross product; no
operation changes the component count. -/
theorem dim_invariant_spec :
    (∀ (T : Type) [Add T] {n : ℕ} (a b : List T),
      a.length = n → b.length = n → (addList a b).length = n) ∧
    (∀ (T : Type) [Sub T] {n : ℕ} (a b : List T),
      a.length = n → b.length = n → (subList a b).length = n) ∧
    (∀ (s : Scalar) (l : List Scalar), (scaleList s l).length = l.length) ∧
    (∀ a b : Vector Scalar 3, (a.x b).vec.length = 3) ∧
    (∀ (T : Type) {n : ℕ} (v : Vector T n), v.vec.length = n) := by
  refine ⟨?_, ?_, ?_, ?_, ?_⟩
  · intro T _ n a b ha hb
    exact length_addList a b ha hb
  · intro T _ n a b ha hb
    exact length_subList a b ha hb
  · intro s l
    exact length_scaleList s l
  · intro a b
    rfl
  · intro T n v
    exact v.hlen

theorem dim_invariant_spec_witness :
    ((addList [1, 2] [3, 4] : List ℕ).length = 2) ∧
    ((subList [5, 6] [1, 2] : List ℕ).length = 2) ∧
    (scaleList 2 [1, 2, 3]).length = [(1 : ℝ), 2, 3].length :=
  ⟨dim_invariant_spec.1 ℕ [1, 2] [3, 4] rfl rfl,
   dim_invariant_spec.2.1 ℕ [5, 6] [1, 2] rfl rfl,
   dim_invariant_spec.2.2.1 2 [1, 2, 3]⟩

/-- The body of `toString()` for a vector of `Dim ≥ 1` components:
`str = "[ "; for(i=0; i<vec.size()-1; i++) str += to_string(vec[i]) + ", ";
str += to_string(vec[vec.size()-1]) + " ]";`.  The element-to-string
conversion `std::to_string` is abstracted as `f`; `d` is the (never used,
when the list is nonempty) default of the total element access.  Here
`vec.size()-1` is `ℕ` subtraction, which agrees with the `size_t`
computation exactly when the size is at least 1 — `toStringChecked` below
models the `size_t`-faithful indexing. -/
def toStringList {T : Type} (f : T → String) (d : T) (l : List T) : String :=
  ((List.range (l.length - 1)).foldl
      (fun str i => str ++ f (l.getD i d) ++ ", ") "[ ")
    ++ f (l.getD (l.length - 1) d) ++ " ]"

/-- `toString()` on vectors. -/
def Vector.toString {T : Type} {n : ℕ} (f : T → String) (d : T)
    (v : Vector T n) : String :=
  toStringList f d v.vec

/-- `operator<<(std::ostream&, const Vector&)`: appends `v.toString()` to
the stream, modelled as the text already written. -/
def streamInsert {T : Type} {n : ℕ} (f : T → String) (d : T)
    (os : String) (v : Vector T n) : String :=
  os ++ Vector.toString f d v

/-- `vec.size()-1` computed in unsigned 64-bit (`size_t`) arithmetic:
it wraps to `2^64 - 1` when the size is `0`. -/
def sizeSub1 (n : ℕ) : ℕ :=
  (n + (2 ^ 64 - 1)) % 2 ^ 64

/-- `toString()` with every component access `vec[i]` bounds-checked:
returns `none` as soon as any index used by the source loop (with its
`size_t` bound `vec.size()-1`) or the final access `vec[vec.size()-1]`
is out of bounds. -/
def toStringChecked {T : Type} (f : T → String) (l : List T) : Option String :=
  ((List.range (sizeSub1 l.length)).foldl
      (fun acc i =>
        acc.bind (fun str => (l.get? i).map (fun e => str ++ f e ++ ", ")))
      (some "[ ")).bind
    (fun str => (l.get? (sizeSub1 l.length)).map (fun e => str ++ f e ++ " ]"))

/-- Joining a list of strings with a separator: the spec's description of
the rendering, "each component's string joined by `, `". -/
def sepBy (sep : String) : List String → String
  | [] => ""
  | [a] => a
  | a :: b :: rest => a ++ sep ++ sepBy sep (b :: rest)

/-- Left-pad a digit string with zeros to width 6. -/
def padZeros6 (s : String) : String :=
  String.mk (List.replicate (6 - s.length) '0') ++ s

/-- Render a non-negative number of micro-units as a fixed-point decimal
with six fractional digits. -/
def fixed6 (m : ℕ) : String :=
  Nat.repr (m / 1000000) ++ "." ++ padZeros6 (Nat.repr (m % 1000000))

/-- Modelled from the spec: `std::to_string(double)` — the C++ standard
library conversion used by `toString()`, which is not part of this
repository — renders its argument as a fixed-point decimal with six
fractional digits (the spec pins `1.0 ↦ "1.000000"`).  The double value
is represented exactly as a rational; the rounded count of micro-units
`⌊|q|·1000000 + 1/2⌋` is computed on the numerator and denominator. -/
def renderFixed6 (q : ℚ) : String :=
  (if q < 0 then "-" else "") ++
    fixed6 ((2 * q.num.natAbs * 1000000 + q.den) / (2 * q.den))

theorem strJoin_cons (a : String) (as : List String) :
    String.join (a :: as) = a ++ String.join as := by
  apply String.ext
  simp

theorem strJoin_concat (as : List String) (a : String) :
    String.join (as ++ [a]) = String.join as ++ a := by
  apply String.ext
  simp

theorem foldl_toString_getD {T : Type} (f : T → String) (d : T) (l : List T) :
    ∀ (k : ℕ), k ≤ l.length → ∀ (s : String),
      (List.range k).foldl (fun str i => str ++ f (l.getD i d) ++ ", ") s
        = s ++ String.join ((l.take k).map (fun e => f e ++ ", ")) := by
  intro k
  induction k with
  | zero =>
    intro _ s
    simp [String.join]
  | succ m ih =>
    intro hk s
    have hm : m < l.length := by omega
    rw [List.range_succ, List.foldl_append, ih (by omega) s]
    simp only [List.foldl_cons, List.foldl_nil]
    have h1 : l.take (m + 1) = l.take m ++ [l[m]] := by
      rw [List.take_succ, List.getElem?_eq_getElem hm]
      rfl
    rw [List.getD_eq_getElem l d hm, h1, List.map_append]
    simp [strJoin_concat, String.append_assoc]

theorem strJoin_map_concat {T : Type} (f : T → String) :
    ∀ (init : List T) (a : T),
      String.join (init.map (fun e => f e ++ ", ")) ++ f a
        = sepBy ", " ((init ++ [a]).map f)
  | [], a => by
    simp [sepBy, String.join]
  | e :: init, a => by
    simp only [List.map_cons, List.cons_append]
    rw [strJoin_cons, String.append_assoc, strJoin_map_concat f init a]
    cases hm : (init ++ [a]).map f with
    | nil => simp at hm
    | cons y ys => rfl

theorem toStringList_shape {T : Type} (f : T → String) (d : T) (l : List T)
    (h : l ≠ []) :
    toStringList f d l = "[ " ++ sepBy ", " (l.map f) ++ " ]" := by
  have hpos : 0 < l.length := List.length_pos.mpr h
  rw [toStringList,
    foldl_toString_getD f d l (l.length - 1) (by omega) "[ "]
  have hget : l.getD (l.length - 1) d = l.getLast h := by
    rw [List.getLast_eq_get, List.getD_eq_getElem l d (by omega)]
    simp
  rw [hget, ← List.dropLast_eq_take]
  conv_rhs => rw [← List.dropLast_append_getLast h]
  rw [← strJoin_map_concat f l.dropLast (l.getLast h)]
  simp [String.append_assoc]

/-- C5: for `Dim ≥ 1`, `toString()` returns `"[ "`, the rendered
components joined by `", "`, then `" ]"`; the vector built from
`(1.0, 2.0, 3.0)` renders as `"[ 1.000000, 2.000000, 3.000000 ]"`; and
`operator<<` writes exactly the `toString()` text. -/
theorem toString_spec :
    (∀ (T : Type) (f : T → String) (d : T) (l : List T), 1 ≤ l.length →
      toStringList f d l = "[ " ++ sepBy ", " (l.map f) ++ " ]") ∧
    Vector.toString renderFixed6 0 (mk3 (1 : ℚ) 2 3)
      = "[ 1.000000, 2.000000, 3.000000 ]" ∧
    (∀ (T : Type) (f : T → String) (d : T) (n : ℕ) (os : String)
      (v : Vector T n), streamInsert f d os v = os ++ Vector.toString f d v) := by
  refine ⟨?_, by decide, fun T f d n os v => rfl⟩
  intro T f d l hl
  refine toStringList_shape f d l ?_
  intro he
  rw [he] at hl
  simp at hl

theorem toString_spec_witness :
    (1 ≤ (["a", "b"] : List String).length) ∧
    toStringList (fun e => e) "" ["a", "b"]
      = "[ " ++ sepBy ", " ((["a", "b"] : List String).map (fun e => e)) ++ " ]" :=
  ⟨by decide, toString_spec.1 String (fun e => e) "" ["a", "b"] (by decide)⟩

theorem foldl_toStringChecked {T : Type} (f : T → String) (l : List T) :
    ∀ (k : ℕ), k ≤ l.length → ∀ (s : String),
      (List.range k).foldl
          (fun acc i =>
            acc.bind (fun str => (l.get? i).map (fun e => str ++ f e ++ ", ")))
          (some s)
        = some (s ++ String.join ((l.take k).map (fun e => f e ++ ", "))) := by
  intro k
  induction k with
  | zero =>
    intro _ s
    simp [String.join]
  | succ m ih =>
    intro hk s
    have hm : m < l.length := by omega
    rw [List.range_succ, List.foldl_append, ih (by omega) s]
    simp only [List.foldl_cons, List.foldl_nil]
    have h1 : l.take (m + 1) = l.take m ++ [l[m]] := by
      rw [List.take_succ, List.getElem?_eq_getElem hm]
      rfl
    rw [List.get?_eq_get hm, h1, List.map_append]
    simp [strJoin_concat, String.append_assoc]

theorem sizeSub1_eq {n : ℕ} (h1 : 1 ≤ n) (h2 : n < 2 ^ 64) :
    sizeSub1 n = n - 1 := by
  rw [sizeSub1, show n + (2 ^ 64 - 1) = (n - 1) + 2 ^ 64 by omega,
    Nat.add_mod_right]
  exact Nat.mod_eq_of_lt (by omega)

theorem foldl_none {α β : Type} (step : Option α → β → Option α)
    (hstep : ∀ a i, step a i = none) :
    ∀ (is : List β) (acc : Option α), is ≠ [] → is.foldl step acc = none := by
  intro is
  induction is with
  | nil =>
    intro acc hne
    exact absurd rfl hne
  | cons i tl ih =>
    intro acc hne
    rw [List.foldl_cons, hstep acc i]
    cases tl with
    | nil => rw [List.foldl_nil]
    | cons j js => exact ih none (by simp)

/-- C10: with the loop bound and final index computed as `vec.size()-1`
in unsigned (`size_t`) arithmetic, every component access of `toString()`
is in bounds exactly when `Dim ≥ 1`: for a nonempty vector the checked
evaluation succeeds and agrees with the total embedding, and for an
empty one it reports an out-of-bounds access. -/
theorem toString_inbounds_spec {T : Type} (f : T → String) (d : T)
    (l : List T) (hsz : l.length < 2 ^ 64) :
    (1 ≤ l.length → toStringChecked f l = some (toStringList f d l)) ∧
    (l.length = 0 → toStringChecked f l = none) := by
  constructor
  · intro h1
    have hm : l.length - 1 < l.length := by omega
    rw [toStringChecked, sizeSub1_eq h1 hsz,
      foldl_toStringChecked f l (l.length - 1) (by omega) "[ ",
      List.get?_eq_get hm]
    rw [toStringList,
      foldl_toString_getD f d l (l.length - 1) (by omega) "[ ",
      List.getD_eq_getElem l d (by omega)]
    simp [Option.bind]
  · intro h0
    have hl : l = [] := List.length_eq_zero.mp h0
    subst hl
    have hfold :
        ((List.range (sizeSub1 (List.length ([] : List T)))).foldl
            (fun acc i =>
              acc.bind
                (fun str => ((([] : List T).get? i).map
                  (fun e => str ++ f e ++ ", "))))
            (some "[ ")) = none := by
      apply foldl_none
      · intro a i
        cases a <;> simp
      · rw [ne_eq, List.range_eq_nil]
        simp only [List.length_nil]
        decide
    rw [toStringChecked, hfold]
    rfl

theorem toString_inbounds_witness :
    toStringChecked (fun e => e) ["a"]
      = some (toStringList (fun e => e) "" ["a"]) :=
  (toString_inbounds_spec (fun e => e) "" ["a"] (by decide)).1 (by decide)

end linearAlgebra
